import Mathlib

/-!
Verification development for the deepquantum layer / Clements-ansatz core
(`src/deepquantum/layer.py` and `src/deepquantum/photonic/ansatz.py`).

The Python source is shallowly embedded: pure loops become structural
recursions over the same index lists, the mutable per-wire column counters of
`Clements.dict2data` become an explicit `Nat → Nat` state threaded through the
walk, Python `KeyError` becomes `Except` carrying the offending key, and the
Python dict passed to `dict2data` becomes an ordered association list (Python
dicts are ordered, keyed maps).
-/

namespace DQ

/-! ### Angle values (torch tensors vs raw scalars)

An angle value in the dictionary handed to `Clements.dict2data` is either a
raw (non-tensor) scalar or a tensor.  Tensors are modelled as their flat list
of entries; `reshape(-1)` on such a flat tensor is the identity, while
`torch.tensor(x).reshape(-1)` on a raw scalar `x` produces the one-element
tensor `[x]`. -/

inductive AngVal where
  | raw (x : Int)
  | tensor (xs : List Int)
deriving DecidableEq, Repr

/-- Coercion performed by the first loop of `dict2data` on each stored value:
`if not isinstance(angle, torch.Tensor): angle = torch.tensor(angle)` followed
by `angle.reshape(-1)`. -/
def coerceVal : AngVal → AngVal
  | .raw x => .tensor [x]
  | .tensor xs => .tensor xs

/-- Flattening performed by `torch.cat` on one list entry. -/
def valFlat : AngVal → List Int
  | .raw x => [x]
  | .tensor xs => xs

abbrev AngleKey := Nat × Nat

/-- A lookup view of an angle dictionary: `none` models a missing key
(Python `KeyError` on subscript). -/
abbrev AngleDict := AngleKey → Option AngVal

/-! ### The Python dict object

`dict2data` receives a Python dict and mutates it in place during the
coercion loop, so the dict itself is modelled as an ordered association list
(`List (AngleKey × AngVal)`), with assignment to an existing key replacing
the value at its position. -/

abbrev PyDict := List (AngleKey × AngVal)

/-- Python `d[k] = v` on a key `k` already present in `d`: the stored value is
replaced in place (the key order is unchanged). -/
def dictAssign (l : PyDict) (k : AngleKey) (v : AngVal) : PyDict :=
  l.map (fun kv => if kv.1 = k then (kv.1, v) else kv)

/-- Python `d[k]` as a total lookup: the value at the first matching key. -/
def dictFind (l : PyDict) (k : AngleKey) : Option AngVal :=
  (l.find? (fun kv => decide (kv.1 = k))).map (fun kv => kv.2)

/-- One iteration of the first loop of `dict2data`:
`angle = angle_dict[key]; ...; angle_dict[key] = angle.reshape(-1)`. -/
def coerceStep (acc : PyDict) (k : AngleKey) : PyDict :=
  match dictFind acc k with
  | none => acc
  | some v => dictAssign acc k (coerceVal v)

/-- The first loop of `dict2data`:
`for key in angle_dict.keys(): ...; angle_dict[key] = angle.reshape(-1)`,
iterating over the dict's key list and assigning the coerced value back. -/
def coercePass (l : PyDict) : PyDict :=
  (l.map Prod.fst).foldl coerceStep l

/-! ### Clements topology (`Clements.__init__`) -/

/-- Elements at indices `0, 2, 4, ...` of a list (Python slice `[::2]`). -/
def everyOther {α : Type} : List α → List α
  | [] => []
  | [a] => [a]
  | a :: _ :: rest => a :: everyOther rest

/-- Python `self.wires[1::2]` with `self.wires = [0, ..., nmode-1]`. -/
def wires1 (nmode : Nat) : List Nat := everyOther ((List.range nmode).drop 1)

/-- Python `self.wires[2::2]` with `self.wires = [0, ..., nmode-1]`. -/
def wires2 (nmode : Nat) : List Nat := everyOther ((List.range nmode).drop 2)

/-- One operation appended during `Clements.__init__` topology construction:
a single-wire phase shifter `ps wire`, or a two-wire MZI `mzi left` acting on
wires `[left, left+1]`. -/
inductive ClOp where
  | ps (wire : Nat)
  | mzi (left : Nat)
deriving DecidableEq, Repr

/-- A row of MZIs: `self.mzi([w - 1, w], ...)` for each `w` in the given wire
list, identified by its left wire `w - 1`. -/
def mziRow (ws : List Nat) : List ClOp := ws.map (fun w => ClOp.mzi (w - 1))

/-- The per-mode phase-shifter pass: `for wire in self.wires: self.ps(wire)`. -/
def psRow (nmode : Nat) : List ClOp := (List.range nmode).map ClOp.ps

/-- The `nmode` alternating MZI rows of `Clements.__init__`: even `i` uses
`wires1`, odd `i` uses `wires2`. -/
def clementsRows (nmode : Nat) : List ClOp :=
  (List.range nmode).flatMap
    (fun i => if i % 2 = 0 then mziRow (wires1 nmode) else mziRow (wires2 nmode))

/-- The complete operation sequence appended during `Clements.__init__`:
phase shifters first when not `phi_first`, then the `nmode` MZI rows, then
phase shifters when `phi_first`. -/
def clementsOps (nmode : Nat) (phiFirst : Bool) : List ClOp :=
  (if phiFirst then [] else psRow nmode) ++ clementsRows nmode
    ++ (if phiFirst then psRow nmode else [])

/-! ### The `dict2data` traversal (`Clements.dict2data`) -/

/-- Walk state: the per-wire column counters (`columns`) and the accumulated
`data` list. -/
abbrev WalkSt := (Nat → Nat) × List AngVal

/-- One of the two phase-shifter loops of `dict2data`:
`data.append(angle_dict[(i, columns[i])]); columns[i] += 1` for each `i`. -/
def psSteps (d : AngleDict) : List Nat → WalkSt → Except AngleKey WalkSt
  | [], st => .ok st
  | i :: rest, (cols, data) =>
    match d (i, cols i) with
    | none => .error (i, cols i)
    | some v => psSteps d rest (Function.update cols i (cols i + 1), data ++ [v])

/-- The body of one MZI row of `dict2data`: for each `w` in the wire list,
`wire = w - 1`; read slots `columns[wire]` and `columns[wire] + 1` (`phi`
first when `phi_first`, `theta` first otherwise), append `theta` then `phi`,
and advance `columns[wire]` by 2. -/
def mziSteps (d : AngleDict) (phiFirst : Bool) :
    List Nat → WalkSt → Except AngleKey WalkSt
  | [], st => .ok st
  | w :: rest, (cols, data) =>
    let wire := w - 1
    match d (wire, cols wire) with
    | none => .error (wire, cols wire)
    | some v1 =>
      match d (wire, cols wire + 1) with
      | none => .error (wire, cols wire + 1)
      | some v2 =>
        let theta := if phiFirst then v2 else v1
        let phi := if phiFirst then v1 else v2
        mziSteps d phiFirst rest
          (Function.update cols wire (cols wire + 2), data ++ [theta, phi])

/-- The middle loop of `dict2data`: `for i in range(self.nmode)`, running one
MZI row over `wires1` when `i` is even and over `wires2` when `i` is odd. -/
def rowSteps (d : AngleDict) (phiFirst : Bool) (nmode : Nat) :
    List Nat → WalkSt → Except AngleKey WalkSt
  | [], st => .ok st
  | i :: rest, st =>
    match
      (if i % 2 = 0 then mziSteps d phiFirst (wires1 nmode) st
       else mziSteps d phiFirst (wires2 nmode) st) with
    | .error k => .error k
    | .ok st2 => rowSteps d phiFirst nmode rest st2

/-- The full `dict2data` traversal after the coercion loop: the optional
leading phase pass, the `nmode` MZI rows, and the optional trailing phase
pass, starting from all-zero column counters and empty data. -/
def clementsTraverse (nmode : Nat) (phiFirst : Bool) (d : AngleDict) :
    Except AngleKey WalkSt :=
  match
    (if phiFirst then Except.ok ((fun _ => 0), [])
     else psSteps d (List.range nmode) ((fun _ => 0), [])) with
  | .error k => .error k
  | .ok st1 =>
    match rowSteps d phiFirst nmode (List.range nmode) st1 with
    | .error k => .error k
    | .ok st2 =>
      if phiFirst then psSteps d (List.range nmode) st2 else .ok st2

/-- Full `Clements.dict2data`: coerce the dict values in place, run the
traversal against the (mutated) dict, and concatenate the collected tensors
(`torch.cat(data)`).  The returned pair is (the dict object as the caller now
sees it, the result of the call). -/
def dict2data (nmode : Nat) (phiFirst : Bool) (l : PyDict) :
    PyDict × Except AngleKey (List Int) :=
  let l2 := coercePass l
  (l2, (clementsTraverse nmode phiFirst (dictFind l2)).map
        (fun st => (st.2.map valFlat).flatten))

/-! ### Spec-side walk over the constructed operation list

Written from the specification's words (§4.5(b) of the spec / claim C1): walk
the operations in the order they were appended during topology construction;
a phase shifter on wire `w` consumes slot `columns[w]` and advances the
counter by 1; an MZI with left wire `w` consumes the two consecutive slots
`columns[w]` and `columns[w] + 1` (read as `(phi, theta)` when `phi_first`,
as `(theta, phi)` otherwise, the operation's parameters being appended in the
operation's `(theta, phi)` parameter order) and advances the counter by 2. -/

def specWalkOp (d : AngleDict) (phiFirst : Bool) (st : WalkSt) :
    ClOp → Except AngleKey WalkSt
  | .ps w =>
    match d (w, st.1 w) with
    | none => .error (w, st.1 w)
    | some v => .ok (Function.update st.1 w (st.1 w + 1), st.2 ++ [v])
  | .mzi w =>
    match d (w, st.1 w) with
    | none => .error (w, st.1 w)
    | some a =>
      match d (w, st.1 w + 1) with
      | none => .error (w, st.1 w + 1)
      | some b =>
        let theta := if phiFirst then b else a
        let phi := if phiFirst then a else b
        .ok (Function.update st.1 w (st.1 w + 2), st.2 ++ [theta, phi])

/-- Walk a whole operation list in order, one `specWalkOp` per operation. -/
def specWalk (d : AngleDict) (phiFirst : Bool) :
    List ClOp → WalkSt → Except AngleKey WalkSt
  | [], st => .ok st
  | op :: rest, st =>
    match specWalkOp d phiFirst st op with
    | .error k => .error k
    | .ok st2 => specWalk d phiFirst rest st2

/-! ### The keys a complete walk visits

The column counters evolve independently of the looked-up values, so the set
of `(wire, slot)` keys the traversal visits is a function of `nmode` and
`phi_first` alone. -/

/-- Keys consumed by one operation, and the updated counters. -/
def opKeys (cols : Nat → Nat) : ClOp → List AngleKey × (Nat → Nat)
  | .ps w => ([(w, cols w)], Function.update cols w (cols w + 1))
  | .mzi w => ([(w, cols w), (w, cols w + 1)], Function.update cols w (cols w + 2))

/-- Keys consumed by a whole operation list, in visit order. -/
def keysWalk : List ClOp → (Nat → Nat) → List AngleKey
  | [], _ => []
  | op :: rest, cols => (opKeys cols op).1 ++ keysWalk rest (opKeys cols op).2

/-- All `(wire, slot)` keys the `dict2data` traversal visits, in visit
order. -/
def requiredKeys (nmode : Nat) (phiFirst : Bool) : List AngleKey :=
  keysWalk (clementsOps nmode phiFirst) (fun _ => 0)

/-! ### Concrete dictionaries used as witness inputs -/

/-- A dictionary for `nmode = 2`, `phi_first = true` that is missing the
required key `(0, 1)`. -/
def exMissingDict : PyDict :=
  [((0, 0), .raw 5), ((0, 2), .tensor [7]), ((1, 0), .raw 1)]

/-- A complete dictionary for `nmode = 2`, `phi_first = true` whose values
are raw (non-tensor) scalars. -/
def exRawDict : PyDict :=
  [((0, 0), .raw 3), ((0, 1), .raw 4), ((0, 2), .raw 5), ((1, 0), .raw 6)]

/-! ### Qubit layers (`src/deepquantum/layer.py`)

`SingleLayer.get_unitary` builds the list `[identity] * nqubit`, overwrites
position `gate.wires[0]` with each gate's matrix in gate order, and folds the
list with `multi_kron`.  The list of length `nqubit` with positional
assignment is embedded as a function `Fin nqubit → Matrix (Fin 2) (Fin 2) ℂ`
(assignment out of range would raise in Python and leaves the function
unchanged here).  `multi_kron` is the external collaborator from `qmath`:
the iterated Kronecker product in ascending wire order. -/

/-- Index type of the `n`-fold Kronecker product of 2x2 matrices. -/
def kIdx : Nat → Type
  | 0 => PUnit
  | n + 1 => Fin 2 × kIdx n

instance instKIdxDecEq : (n : Nat) → DecidableEq (kIdx n)
  | 0 => fun a b => isTrue (by cases a; cases b; rfl)
  | n + 1 =>
    @instDecidableEqProd (Fin 2) (kIdx n) _ (instKIdxDecEq n)

instance instKIdxFintype : (n : Nat) → Fintype (kIdx n)
  | 0 => inferInstanceAs (Fintype PUnit)
  | n + 1 => @instFintypeProd (Fin 2) (kIdx n) _ (instKIdxFintype n)

/-- A single-qubit gate matrix. -/
abbrev M2 := Matrix (Fin 2) (Fin 2) ℂ

open Kronecker in
/-- Modelled from the spec: the external `multi_kron` collaborator of
`qmath` — the generalized tensor ("multi-Kronecker") product of the per-wire
matrix list, folded in ascending wire order. -/
def multi_kron : (n : Nat) → (Fin n → M2) → Matrix (kIdx n) (kIdx n) ℂ
  | 0, _ => 1
  | n + 1, f => f 0 ⊗ₖ multi_kron n (fun i => f i.succ)

/-- A single-qubit gate as `SingleLayer.get_unitary` consumes it: its target
wire (`gate.wires[0]`) and the matrix `gate.update_matrix()` returns.  The
matrix itself is owned by the external Gate collaborator. -/
structure SGate where
  wire : Nat
  mat : M2

/-- One loop iteration of `get_unitary`: `lst[gate.wires[0]] = gate.update_matrix()`. -/
def assignGate (n : Nat) (lst : Fin n → M2) (g : SGate) : Fin n → M2 :=
  if h : g.wire < n then Function.update lst ⟨g.wire, h⟩ g.mat else lst

/-- The per-wire matrix list of `SingleLayer.get_unitary` after the
assignment loop, starting from `[identity] * nqubit`. -/
def gateList (n : Nat) (gates : List SGate) : Fin n → M2 :=
  gates.foldl (assignGate n) (fun _ => 1)

/-- Python `SingleLayer.get_unitary`: assemble the per-wire list, then fold
it with `multi_kron`. -/
def get_unitary (n : Nat) (gates : List SGate) : Matrix (kIdx n) (kIdx n) ℂ :=
  multi_kron n (gateList n gates)

/-- Modelled from the spec: the Gate collaborator's `inverse()` — for a
unitary gate, the inverse is the conjugate transpose of its matrix, acting on
the same wire. -/
def gateInverse (g : SGate) : SGate := { wire := g.wire, mat := g.mat.conjTranspose }

/-- A rotation-family layer (`RxLayer` / `RyLayer` / `RzLayer` / `U3Layer`):
its declared qubit count, its wire groups, and its gate sequence. -/
structure RotLayer where
  nqubit : Nat
  wires : List (List Nat)
  gates : List SGate

/-- Python `RxLayer.inverse` (identical in `RyLayer`, `RzLayer`, `U3Layer`):
deep-copy, then replace the gate sequence by the reversed element-wise
inverted one and the wire groups by their reverse. -/
def RotLayer.inverse (L : RotLayer) : RotLayer :=
  { nqubit := L.nqubit,
    wires := L.wires.reverse,
    gates := L.gates.reverse.map gateInverse }

/-- The last gate of the sequence acting on wire `w`, if any: the gate whose
matrix survives at position `w` after the assignment loop. -/
def lastOn (gates : List SGate) (w : Nat) : Option SGate :=
  gates.reverse.find? (fun g => decide (g.wire = w))

/-- The sub-sequence keeping, for each wire, only the last gate acting on
it (a gate is kept iff no later gate shares its wire). -/
def keepLast : List SGate → List SGate
  | [] => []
  | g :: gs =>
    if gs.any (fun g2 => decide (g2.wire = g.wire)) then keepLast gs
    else g :: keepLast gs

/-- Modelled from the spec: the external rotation-gate collaborator `Rx`,
with the standard convention `Rx θ = cos (θ/2) I - i sin (θ/2) X`. -/
noncomputable def RxMat (θ : ℝ) : M2 :=
  !![(Real.cos (θ / 2) : ℂ), -Complex.I * Real.sin (θ / 2);
     -Complex.I * Real.sin (θ / 2), (Real.cos (θ / 2) : ℂ)]

/-- An `RxLayer` over one qubit with the duplicated wire groups
`[[0], [0]]` and injected parameters `θ = 0` and `θ = π`. -/
noncomputable def dupRxLayer : RotLayer :=
  { nqubit := 1,
    wires := [[0], [0]],
    gates := [⟨0, RxMat 0⟩, ⟨0, RxMat Real.pi⟩] }

/-- An `RxLayer` over one qubit with the default wire groups and injected
parameter `θ = 0`. -/
noncomputable def exRotLayer : RotLayer :=
  { nqubit := 1, wires := [[0]], gates := [⟨0, RxMat 0⟩] }

/-- A two-qubit gate matrix. -/
abbrev M4 := Matrix (Fin 4) (Fin 4) ℂ

/-- Modelled from the spec: the external CNOT gate collaborator's matrix —
the standard controlled-NOT permutation matrix. -/
def CNOTmat : M4 :=
  !![1, 0, 0, 0; 0, 1, 0, 0; 0, 0, 0, 1; 0, 0, 1, 0]

/-- A CNOT layer: its declared qubit count and its wire groups (the gate
sequence is one CNOT per wire group, in order). -/
structure CnotLayer where
  nqubit : Nat
  wires : List (List Nat)

/-- The gate sequence a `CnotLayer` constructs: one CNOT per wire group,
in wire-group order. -/
def CnotLayer.gates (L : CnotLayer) : List (List Nat × M4) :=
  L.wires.map (fun w => (w, CNOTmat))

/-- Python `CnotLayer.inverse`: rebuild a CNOT layer over the reversed
wire-group list. -/
def CnotLayer.inverse (L : CnotLayer) : CnotLayer :=
  { nqubit := L.nqubit, wires := L.wires.reverse }

/-- A concrete CNOT layer instance used by the witness. -/
def exCnotLayer : CnotLayer := { nqubit := 3, wires := [[0, 1], [1, 2]] }

/-! ### CnotRing (`CnotRing.__init__` in `layer.py`)

Wire indices are Python ints.  Python `%` with a positive modulus returns a
non-negative remainder, which is `Int.emod` (`%` on `ℤ`). -/

/-- The `minmax` validation of `CnotRing.__init__`: a two-element integer
list with `minmax[0] > -1`, `minmax[0] < minmax[1]`, `minmax[1] < nqubit`
(a non-list or wrong-length argument fails the earlier asserts). -/
def boundsOk (nqubit : Int) : List Int → Bool
  | [low, high] => -1 < low && low < high && high < nqubit
  | _ => false

/-- The wire-group comprehension of `CnotRing.__init__`:
`[[minmax[0] + i, minmax[0] + (i-step) % nwires] for i in range(minmax[1]-minmax[0], -1, -1)]`
when `reverse`, and
`[[minmax[0] + i, minmax[0] + (i+step) % nwires] for i in range(minmax[1]-minmax[0]+1)]`
otherwise, with `nwires = minmax[1] - minmax[0] + 1`. -/
def cnotRingWires (low high step : Int) (rev : Bool) : List (List Int) :=
  if rev then
    ((List.range ((high - low).toNat + 1)).reverse).map
      (fun (i : Nat) => [low + (i : Int), low + ((i : Int) - step) % (high - low + 1)])
  else
    (List.range ((high - low).toNat + 1)).map
      (fun (i : Nat) => [low + (i : Int), low + ((i : Int) + step) % (high - low + 1)])

/-- Python `CnotRing.__init__`: validate `minmax`, then produce the wire
groups; a failed assert aborts construction and no layer is returned. -/
def cnotRingInit (nqubit : Int) : List Int → Int → Bool → Except Unit (List (List Int))
  | [low, high], step, rev =>
    if boundsOk nqubit [low, high] then .ok (cnotRingWires low high step rev)
    else .error ()
  | _, _, _ => .error ()

/-- Following the "right pointer" of the full ring with `step = 1`: wire `w`
connects to `(w + 1) % n`. -/
def ringSucc (n : Nat) (w : Nat) : Nat := (w + 1) % n

/-! ### Observable basis parsing (`Observable.__init__` in `layer.py`) -/

/-- The Pauli gate collaborators an `Observable` dispatches to. -/
inductive Pauli where
  | X
  | Y
  | Z
deriving DecidableEq, Repr

/-- The two configuration errors of `Observable.__init__`: the
wire-count/basis-length assert, and `ValueError('Use illegal measurement
basis')`. -/
inductive ObsErr where
  | lengthMismatch
  | illegalBasis
deriving DecidableEq, Repr

/-- The chain `if self.basis[i] == 'x': ... elif 'y' ... elif 'z' ... else
raise`, for one (already lowercased) character. -/
def basisGate (c : Char) : Option Pauli :=
  if c = 'x' then some .X
  else if c = 'y' then some .Y
  else if c = 'z' then some .Z
  else none

/-- The gate-construction loop of `Observable.__init__` over the wires
paired with their basis characters; the first unrecognized character raises
the ValueError. -/
def obsGates : List (List Nat × Char) → Except ObsErr (List (List Nat × Pauli))
  | [] => .ok []
  | (w, c) :: rest =>
    match basisGate c with
    | none => .error .illegalBasis
    | some p => (obsGates rest).map (fun gs => (w, p) :: gs)

/-- Python `Observable.__init__` after wire resolution (which is done by the
external `Layer` base): lowercase the basis string, expand a single
character to one per measured wire, assert the lengths agree, then build one
Pauli gate per wire.  Returns the stored `self.basis` and the gate list. -/
def observableInit (wires : List (List Nat)) (basis : List Char) :
    Except ObsErr (List Char × List (List Nat × Pauli)) :=
  let b := basis.map Char.toLower
  let b2 := match b with
    | [c] => List.replicate wires.length c
    | _ => b
  if wires.length = b2.length then
    (obsGates (wires.zip b2)).map (fun gs => (b2, gs))
  else .error .lengthMismatch

/-! ### Heap model for inversion aliasing (`inverse` in `layer.py`)

Python object semantics for `RxLayer.inverse` (identical in the other
rotation layers): `deepcopy(self)` copies every reachable mutable object;
`nn.Sequential()` plus `append(gate.inverse())` builds a fresh container of
fresh gate objects (the Gate collaborator's `inverse` returns a new gate,
per the spec's copy guarantee); `layer.wires = self.wires[::-1]` builds a
fresh outer list whose elements are the same inner wire-group list objects,
reversed.  Objects live in an explicit heap, an address is an index, and
allocation appends. -/

/-- A Python object relevant to a layer: a mutable inner wire-group list, a
layer's `wires` list (a list of addresses of inner lists), a gate container,
or an opaque gate object tagged with the address it derives from. -/
inductive PObj where
  | innerW (xs : List Int)
  | outerW (ptrs : List Nat)
  | gateSeq (ptrs : List Nat)
  | gateObj (src : Nat)
deriving DecidableEq, Repr

abbrev Heap := List PObj

/-- Allocate one object, returning the extended heap and the fresh
address. -/
def alloc (h : Heap) (o : PObj) : Heap × Nat := (h ++ [o], h.length)

/-- Read a layer's outer wires list (empty for a dangling or ill-typed
address). -/
def outerAt (h : Heap) (p : Nat) : List Nat :=
  match h[p]? with
  | some (.outerW l) => l
  | _ => []

/-- Read a gate container. -/
def seqAt (h : Heap) (p : Nat) : List Nat :=
  match h[p]? with
  | some (.gateSeq l) => l
  | _ => []

/-- A layer object's mutable fields: the addresses of its gate container
and of its wires list. -/
structure PLayer where
  gatesPtr : Nat
  wiresPtr : Nat
deriving DecidableEq, Repr

/-- Deep-copy each inner wire-group list, allocating one fresh object per
element. -/
def copyInner (h : Heap) : List Nat → Heap × List Nat
  | [] => (h, [])
  | p :: rest =>
    let h1q := alloc h (match h[p]? with
      | some (.innerW xs) => PObj.innerW xs
      | _ => PObj.innerW [])
    let h2qs := copyInner h1q.1 rest
    (h2qs.1, h1q.2 :: h2qs.2)

/-- Allocate one fresh gate object per listed gate (used by the deep copy
and by `gate.inverse()`). -/
def copyGates (h : Heap) : List Nat → Heap × List Nat
  | [] => (h, [])
  | p :: rest =>
    let h1q := alloc h (PObj.gateObj p)
    let h2qs := copyGates h1q.1 rest
    (h2qs.1, h1q.2 :: h2qs.2)

/-- Python `deepcopy(self)` for a layer: fresh inner lists, a fresh outer
list over them, fresh gate objects, a fresh container. -/
def deepcopyLayer (h : Heap) (L : PLayer) : Heap × PLayer :=
  let c1 := copyInner h (outerAt h L.wiresPtr)
  let a1 := alloc c1.1 (PObj.outerW c1.2)
  let c2 := copyGates a1.1 (seqAt h L.gatesPtr)
  let a2 := alloc c2.1 (PObj.gateSeq c2.2)
  (a2.1, { gatesPtr := a2.2, wiresPtr := a1.2 })

/-- Python `RxLayer.inverse` at heap level: `layer = deepcopy(self)`; a
fresh container filled with `gate.inverse()` over `self.gates[::-1]`;
`layer.wires = self.wires[::-1]` — a fresh outer list holding the original
inner list addresses reversed. -/
def rotInverseHeap (h : Heap) (L : PLayer) : Heap × PLayer :=
  let d := deepcopyLayer h L
  let c := copyGates d.1 (seqAt d.1 L.gatesPtr).reverse
  let ag := alloc c.1 (PObj.gateSeq c.2)
  let aw := alloc ag.1 (PObj.outerW (outerAt ag.1 L.wiresPtr).reverse)
  (aw.1, { gatesPtr := ag.2, wiresPtr := aw.2 })

/-- A concrete starting heap: inner wire-group lists `[0]` and `[1]` at
addresses 0 and 1, the outer wires list at 2, two gate objects at 3 and 4,
and the gate container at 5. -/
def exHeap : Heap :=
  [.innerW [0], .innerW [1], .outerW [0, 1], .gateObj 3, .gateObj 4,
   .gateSeq [3, 4]]

/-- The layer living in `exHeap`. -/
def exPLayer : PLayer := { gatesPtr := 5, wiresPtr := 2 }

/-! ### The traversal of `dict2data` walks the constructed topology -/

theorem specWalk_append (d : AngleDict) (pf : Bool) (l1 l2 : List ClOp)
    (st : WalkSt) :
    specWalk d pf (l1 ++ l2) st =
      match specWalk d pf l1 st with
      | .error k => .error k
      | .ok st2 => specWalk d pf l2 st2 := by
  induction l1 generalizing st with
  | nil => simp [specWalk]
  | cons op rest ih =>
    simp only [List.cons_append, specWalk]
    cases specWalkOp d pf st op with
    | error k => rfl
    | ok st2 => exact ih st2

theorem psSteps_eq_specWalk (d : AngleDict) (pf : Bool) (ws : List Nat)
    (st : WalkSt) :
    psSteps d ws st = specWalk d pf (ws.map ClOp.ps) st := by
  induction ws generalizing st with
  | nil => rfl
  | cons i rest ih =>
    obtain ⟨cols, data⟩ := st
    simp only [List.map_cons, psSteps, specWalk, specWalkOp]
    cases d (i, cols i) with
    | none => rfl
    | some v => exact ih _

theorem mziSteps_eq_specWalk (d : AngleDict) (pf : Bool) (ws : List Nat)
    (st : WalkSt) :
    mziSteps d pf ws st = specWalk d pf (mziRow ws) st := by
  induction ws generalizing st with
  | nil => rfl
  | cons w rest ih =>
    obtain ⟨cols, data⟩ := st
    simp only [mziRow, List.map_cons, mziSteps, specWalk, specWalkOp]
    cases d (w - 1, cols (w - 1)) with
    | none => rfl
    | some a =>
      cases d (w - 1, cols (w - 1) + 1) with
      | none => rfl
      | some b => exact ih _

theorem rowSteps_eq_specWalk (d : AngleDict) (pf : Bool) (nmode : Nat)
    (is : List Nat) (st : WalkSt) :
    rowSteps d pf nmode is st =
      specWalk d pf
        (is.flatMap (fun i =>
          if i % 2 = 0 then mziRow (wires1 nmode) else mziRow (wires2 nmode)))
        st := by
  induction is generalizing st with
  | nil => rfl
  | cons i rest ih =>
    simp only [List.flatMap_cons, specWalk_append, rowSteps]
    by_cases h : i % 2 = 0
    · simp only [if_pos h, ← mziSteps_eq_specWalk d pf]
      cases mziSteps d pf (wires1 nmode) st with
      | error k => rfl
      | ok st2 => exact ih st2
    · simp only [if_neg h, ← mziSteps_eq_specWalk d pf]
      cases mziSteps d pf (wires2 nmode) st with
      | error k => rfl
      | ok st2 => exact ih st2

/-- The `dict2data` traversal is exactly the spec-side walk over the
operation list constructed by `Clements.__init__`. -/
theorem clementsTraverse_eq_specWalk (nmode : Nat) (pf : Bool)
    (d : AngleDict) :
    clementsTraverse nmode pf d =
      specWalk d pf (clementsOps nmode pf) ((fun _ => 0), []) := by
  unfold clementsTraverse clementsOps clementsRows
  cases pf with
  | true =>
    simp only [if_pos, List.nil_append, specWalk_append, psRow,
      ← rowSteps_eq_specWalk, ← psSteps_eq_specWalk d true]
  | false =>
    simp only [Bool.false_eq_true, if_false, List.append_nil, specWalk_append,
      psRow, ← rowSteps_eq_specWalk, ← psSteps_eq_specWalk d false]
    cases psSteps d (List.range nmode) ((fun _ => 0), []) with
    | error k => rfl
    | ok st1 =>
      show (match rowSteps d false nmode (List.range nmode) st1 with
        | Except.error k => Except.error k
        | Except.ok st2 => Except.ok st2) =
          rowSteps d false nmode (List.range nmode) st1
      cases rowSteps d false nmode (List.range nmode) st1 with
      | error k => rfl
      | ok st2 => rfl

/-! ### Missing keys and the traversal -/

theorem specWalk_error_mem (d : AngleDict) (pf : Bool) (ops : List ClOp) :
    ∀ (cols : Nat → Nat) (data : List AngVal) (k : AngleKey),
      specWalk d pf ops (cols, data) = .error k →
      d k = none ∧ k ∈ keysWalk ops cols := by
  induction ops with
  | nil => intro cols data k h; simp [specWalk] at h
  | cons op rest ih =>
    intro cols data k h
    cases op with
    | ps w =>
      simp only [specWalk, specWalkOp] at h
      cases hd : d (w, cols w) with
      | none =>
        rw [hd] at h
        simp only [Except.error.injEq] at h
        subst h
        exact ⟨hd, by simp [keysWalk, opKeys]⟩
      | some v =>
        rw [hd] at h
        obtain ⟨h1, h2⟩ := ih _ _ _ h
        exact ⟨h1, by simp only [keysWalk, opKeys]; exact List.mem_append_right _ h2⟩
    | mzi w =>
      simp only [specWalk, specWalkOp] at h
      cases hd1 : d (w, cols w) with
      | none =>
        rw [hd1] at h
        simp only [Except.error.injEq] at h
        subst h
        exact ⟨hd1, by simp [keysWalk, opKeys]⟩
      | some a =>
        rw [hd1] at h
        cases hd2 : d (w, cols w + 1) with
        | none =>
          rw [hd2] at h
          simp only [Except.error.injEq] at h
          subst h
          exact ⟨hd2, by simp [keysWalk, opKeys]⟩
        | some b =>
          rw [hd2] at h
          obtain ⟨h1, h2⟩ := ih _ _ _ h
          refine ⟨h1, ?_⟩
          simp only [keysWalk, opKeys]
          exact List.mem_append_right _ h2

theorem specWalk_ok_keys (d : AngleDict) (pf : Bool) (ops : List ClOp) :
    ∀ (cols : Nat → Nat) (data : List AngVal) (st : WalkSt),
      specWalk d pf ops (cols, data) = .ok st →
      ∀ k ∈ keysWalk ops cols, (d k).isSome := by
  induction ops with
  | nil => intro cols data st _ k hk; simp [keysWalk] at hk
  | cons op rest ih =>
    intro cols data st h k hk
    cases op with
    | ps w =>
      simp only [specWalk, specWalkOp] at h
      cases hd : d (w, cols w) with
      | none => rw [hd] at h; exact absurd h (by simp)
      | some v =>
        rw [hd] at h
        simp only [keysWalk, opKeys, List.singleton_append, List.mem_cons] at hk
        rcases hk with rfl | hk
        · simp [hd]
        · exact ih _ _ _ h k hk
    | mzi w =>
      simp only [specWalk, specWalkOp] at h
      cases hd1 : d (w, cols w) with
      | none => rw [hd1] at h; exact absurd h (by simp)
      | some a =>
        rw [hd1] at h
        cases hd2 : d (w, cols w + 1) with
        | none => rw [hd2] at h; exact absurd h (by simp)
        | some b =>
          rw [hd2] at h
          simp only [keysWalk, opKeys, List.cons_append, List.singleton_append,
            List.mem_cons] at hk
          rcases hk with rfl | rfl | hk
          · simp [hd1]
          · simp [hd2]
          · exact ih _ _ _ h k hk

/-! ### The coercion loop: keys preserved, values coerced in place -/

theorem coerceVal_idem (v : AngVal) : coerceVal (coerceVal v) = coerceVal v := by
  cases v <;> rfl

theorem dictAssign_keys (l : PyDict) (k : AngleKey) (v : AngVal) :
    (dictAssign l k v).map Prod.fst = l.map Prod.fst := by
  induction l with
  | nil => rfl
  | cons kv rest ih =>
    simp only [dictAssign, List.map_cons] at ih ⊢
    by_cases h : kv.1 = k
    · simp only [if_pos h, ih]
    · simp only [if_neg h, ih]

theorem coerceStep_keys (l : PyDict) (k : AngleKey) :
    (coerceStep l k).map Prod.fst = l.map Prod.fst := by
  unfold coerceStep
  cases dictFind l k with
  | none => rfl
  | some v => exact dictAssign_keys l k _

theorem foldl_coerceStep_keys (ks : List AngleKey) (l : PyDict) :
    (ks.foldl coerceStep l).map Prod.fst = l.map Prod.fst := by
  induction ks generalizing l with
  | nil => rfl
  | cons k rest ih => rw [List.foldl_cons, ih, coerceStep_keys]

theorem coercePass_keys (l : PyDict) :
    (coercePass l).map Prod.fst = l.map Prod.fst :=
  foldl_coerceStep_keys _ l

theorem dictFind_eq_none_iff (l : PyDict) (k : AngleKey) :
    dictFind l k = none ↔ k ∉ l.map Prod.fst := by
  simp only [dictFind, Option.map_eq_none', List.find?_eq_none, List.mem_map,
    decide_eq_true_eq]
  constructor
  · rintro h ⟨kv, hmem, hfst⟩
    exact h kv hmem hfst
  · rintro h kv hmem hfst
    exact h ⟨kv, hmem, hfst⟩

theorem coercePass_find_none (l : PyDict) (k : AngleKey) :
    dictFind (coercePass l) k = none ↔ dictFind l k = none := by
  rw [dictFind_eq_none_iff, dictFind_eq_none_iff, coercePass_keys]

theorem dictFind_unique (l : PyDict) (k : AngleKey) (v : AngVal)
    (hnd : (l.map Prod.fst).Nodup) (hf : dictFind l k = some v) :
    ∀ kv ∈ l, kv.1 = k → kv.2 = v := by
  induction l with
  | nil => intro kv h; simp at h
  | cons kv0 rest ih =>
    simp only [List.map_cons, List.nodup_cons] at hnd
    intro kv hmem hk
    by_cases h0 : kv0.1 = k
    · have hv : kv0.2 = v := by
        unfold dictFind at hf
        rw [List.find?_cons_of_pos _ (by simp [h0])] at hf
        simpa using hf
      rcases List.mem_cons.mp hmem with rfl | hmem'
      · exact hv
      · refine absurd ?_ hnd.1
        rw [h0, ← hk]
        exact List.mem_map_of_mem Prod.fst hmem'
    · rcases List.mem_cons.mp hmem with rfl | hmem'
      · exact absurd hk h0
      · have hf' : dictFind rest k = some v := by
          unfold dictFind at hf ⊢
          rwa [List.find?_cons_of_neg _ (by simp [h0])] at hf
        exact ih hnd.2 hf' kv hmem' hk

theorem coerceStep_map (l : PyDict) (k : AngleKey)
    (hnd : (l.map Prod.fst).Nodup) :
    coerceStep l k =
      l.map (fun kv => if kv.1 = k then (kv.1, coerceVal kv.2) else kv) := by
  unfold coerceStep
  cases hf : dictFind l k with
  | none =>
    have hmem := (dictFind_eq_none_iff l k).mp hf
    have : ∀ kv ∈ l, kv = if kv.1 = k then (kv.1, coerceVal kv.2) else kv := by
      intro kv hkv
      rw [if_neg]
      intro hk
      exact hmem (hk ▸ List.mem_map_of_mem Prod.fst hkv)
    calc l = l.map id := (List.map_id l).symm
      _ = _ := List.map_congr_left (fun kv hkv => this kv hkv)
  | some v =>
    unfold dictAssign
    refine List.map_congr_left (fun kv hkv => ?_)
    by_cases hk : kv.1 = k
    · rw [if_pos hk, if_pos hk, dictFind_unique l k v hnd hf kv hkv hk]
    · rw [if_neg hk, if_neg hk]

theorem foldl_coerceStep_spec (ks : List AngleKey) (l : PyDict)
    (hnd : (l.map Prod.fst).Nodup) :
    ks.foldl coerceStep l =
      l.map (fun kv => if kv.1 ∈ ks then (kv.1, coerceVal kv.2) else kv) := by
  induction ks generalizing l with
  | nil =>
    simp only [List.foldl_nil, List.not_mem_nil, if_false]
    exact (List.map_id l).symm
  | cons k rest ih =>
    rw [List.foldl_cons]
    have hnd2 : ((coerceStep l k).map Prod.fst).Nodup := by
      rw [coerceStep_keys]; exact hnd
    rw [ih (coerceStep l k) hnd2, coerceStep_map l k hnd, List.map_map]
    refine List.map_congr_left (fun kv _ => ?_)
    simp only [Function.comp]
    by_cases hk : kv.1 = k
    · rw [if_pos hk]
      by_cases hr : kv.1 ∈ rest
      · rw [if_pos hr, if_pos (List.mem_cons.mpr (Or.inl hk)), coerceVal_idem]
      · rw [if_neg hr, if_pos (List.mem_cons.mpr (Or.inl hk))]
    · rw [if_neg hk]
      by_cases hr : kv.1 ∈ rest
      · rw [if_pos hr, if_pos (List.mem_cons.mpr (Or.inr hr))]
      · rw [if_neg hr, if_neg (by simp [hk, hr])]

/-- Under unique keys (always true of a Python dict), the coercion loop maps
every stored value to its coerced form, in place. -/
theorem coercePass_spec (l : PyDict) (hnd : (l.map Prod.fst).Nodup) :
    coercePass l = l.map (fun kv => (kv.1, coerceVal kv.2)) := by
  unfold coercePass
  rw [foldl_coerceStep_spec _ l hnd]
  refine List.map_congr_left (fun kv hkv => ?_)
  rw [if_pos (List.mem_map_of_mem Prod.fst hkv)]

/-! ### Kronecker assembly lemmas -/

theorem multi_kron_mul (n : Nat) (f g : Fin n → M2) :
    multi_kron n f * multi_kron n g = multi_kron n (fun i => f i * g i) := by
  induction n with
  | zero => simp [multi_kron]
  | succ n ih =>
    simp only [multi_kron]
    rw [← Matrix.mul_kronecker_mul, ih]

theorem multi_kron_one (n : Nat) : multi_kron n (fun _ => 1) = 1 := by
  induction n with
  | zero => rfl
  | succ n ih =>
    simp only [multi_kron, ih]
    exact Matrix.one_kronecker_one

/-! ### The assignment loop of `get_unitary` -/

theorem foldl_assignGate (gates : List SGate) (n : Nat) (acc : Fin n → M2)
    (w : Fin n) :
    (gates.foldl (assignGate n) acc) w =
      (gates.reverse.find? (fun g => decide (g.wire = w.val))).elim (acc w)
        SGate.mat := by
  induction gates generalizing acc with
  | nil => rfl
  | cons g gs ih =>
    rw [List.foldl_cons, ih, List.reverse_cons, List.find?_append]
    cases hf : gs.reverse.find? (fun g2 => decide (g2.wire = w.val)) with
    | some g2 => rfl
    | none =>
      simp only [Option.none_or]
      by_cases hw : g.wire = w.val
      · have hlt : g.wire < n := by rw [hw]; exact w.isLt
        have hfs : List.find? (fun g2 => decide (g2.wire = w.val)) [g] = some g := by
          simp [hw]
        rw [hfs]
        simp only [Option.elim]
        unfold assignGate
        rw [dif_pos hlt]
        have hww : w = ⟨g.wire, hlt⟩ := Fin.ext hw.symm
        rw [hww, Function.update_same]
      · have hfs : List.find? (fun g2 => decide (g2.wire = w.val)) [g] = none := by
          simp [hw]
        rw [hfs]
        simp only [Option.elim]
        unfold assignGate
        split
        · rw [Function.update_noteq]
          intro hww
          exact hw (by rw [hww])
        · rfl

theorem gateList_eq_lastOn (n : Nat) (gates : List SGate) (w : Fin n) :
    gateList n gates w = (lastOn gates w.val).elim 1 SGate.mat :=
  foldl_assignGate gates n _ w

theorem lastOn_keepLast (gates : List SGate) (w : Nat) :
    lastOn (keepLast gates) w = lastOn gates w := by
  induction gates with
  | nil => rfl
  | cons g gs ih =>
    unfold keepLast
    by_cases h : gs.any (fun g2 => decide (g2.wire = g.wire))
    · rw [if_pos h, ih]
      unfold lastOn
      rw [List.reverse_cons, List.find?_append]
      cases hf : gs.reverse.find? (fun g2 => decide (g2.wire = w)) with
      | some g2 => rfl
      | none =>
        simp only [Option.none_or]
        by_cases hw : g.wire = w
        · exfalso
          obtain ⟨g2, hg2mem, hg2⟩ := List.any_eq_true.mp h
          rw [List.find?_eq_none] at hf
          exact hf g2 (by simp [List.mem_reverse, hg2mem])
            (by simp only [decide_eq_true_eq] at hg2 ⊢; rw [hg2, hw])
        · rw [List.find?_cons_of_neg _ (by simp [hw]), List.find?_nil]
    · rw [if_neg h]
      unfold lastOn at ih ⊢
      rw [List.reverse_cons, List.reverse_cons, List.find?_append,
        List.find?_append, ih]

/-- With pairwise-distinct wires, the first and the last gate on a wire
coincide. -/
theorem find?_wire_reverse (gates : List SGate) (w : Nat)
    (hnd : (gates.map SGate.wire).Nodup) :
    gates.reverse.find? (fun g => decide (g.wire = w)) =
      gates.find? (fun g => decide (g.wire = w)) := by
  induction gates with
  | nil => rfl
  | cons g gs ih =>
    simp only [List.map_cons, List.nodup_cons] at hnd
    rw [List.reverse_cons, List.find?_append, ih hnd.2]
    by_cases hw : g.wire = w
    · have hnone : gs.find? (fun g2 => decide (g2.wire = w)) = none := by
        rw [List.find?_eq_none]
        intro g2 hg2 hp
        simp only [decide_eq_true_eq] at hp
        exact hnd.1 ((hw ▸ hp ▸ rfl : g2.wire = g.wire) ▸
          List.mem_map_of_mem SGate.wire hg2)
      rw [hnone, List.find?_cons_of_pos _ (by simp [hw]),
        List.find?_cons_of_pos _ (by simp [hw])]
      rfl
    · rw [List.find?_cons_of_neg _ (by simp [hw]),
        List.find?_cons_of_neg _ (by simp [hw]), List.find?_nil, Option.or_none]

/-- The last gate on a wire in the inverted gate sequence is the inverse of
the first gate on that wire in the original sequence. -/
theorem lastOn_rotInverse (gates : List SGate) (w : Nat) :
    lastOn (gates.reverse.map gateInverse) w =
      (gates.find? (fun g => decide (g.wire = w))).map gateInverse := by
  unfold lastOn
  rw [← List.map_reverse, List.reverse_reverse, List.find?_map]
  congr 1

theorem RxMat_zero : RxMat 0 = 1 := by
  unfold RxMat
  ext i j
  fin_cases i <;> fin_cases j <;>
    simp [zero_div, Real.cos_zero, Real.sin_zero, Matrix.one_apply]

theorem CNOTmat_mul_self : CNOTmat * CNOTmat = 1 := by
  ext i j
  fin_cases i <;> fin_cases j <;>
    simp [CNOTmat, Matrix.mul_apply, Fin.sum_univ_four, Matrix.one_apply,
      Matrix.vecHead, Matrix.vecTail]

/-- Round-trip for a rotation-family layer whose wires are pairwise
distinct. -/
theorem rot_roundtrip_core (L : RotLayer)
    (hnd : (L.gates.map SGate.wire).Nodup)
    (hu : ∀ g ∈ L.gates, g.mat.conjTranspose * g.mat = 1) :
    get_unitary L.nqubit L.inverse.gates * get_unitary L.nqubit L.gates = 1 := by
  unfold get_unitary
  rw [multi_kron_mul]
  have hpt : (fun i => gateList L.nqubit L.inverse.gates i
      * gateList L.nqubit L.gates i) = fun _ => (1 : M2) := by
    funext w
    rw [gateList_eq_lastOn, gateList_eq_lastOn]
    have hinv : lastOn (RotLayer.inverse L).gates w.val
        = (L.gates.find? (fun g => decide (g.wire = w.val))).map gateInverse :=
      lastOn_rotInverse L.gates w.val
    rw [hinv]
    unfold lastOn
    rw [find?_wire_reverse L.gates w.val hnd]
    cases hfind : L.gates.find? (fun g => decide (g.wire = w.val)) with
    | none => simp
    | some g =>
      have hg : g ∈ L.gates := List.mem_of_find?_eq_some hfind
      simp only [Option.map_some', Option.elim]
      exact hu g hg
  rw [hpt, multi_kron_one]

/-! ### Ring connectivity lemmas -/

theorem ringSucc_iterate (n : Nat) (k w : Nat) (hw : w < n) :
    (ringSucc n)^[k] w = (w + k) % n := by
  induction k generalizing w with
  | zero => simp [Nat.mod_eq_of_lt hw]
  | succ k ih =>
    rw [Function.iterate_succ_apply]
    have hpos : 0 < n := by omega
    have h1 : ringSucc n w < n := Nat.mod_lt _ hpos
    rw [ih _ h1]
    unfold ringSucc
    rw [Nat.mod_add_mod]
    congr 1
    omega

theorem ringSucc_cycle (n w : Nat) (hw : w < n) :
    (ringSucc n)^[n] w = w ∧
      ∀ k : Nat, 0 < k → k < n → (ringSucc n)^[k] w ≠ w := by
  constructor
  · rw [ringSucc_iterate n n w hw, Nat.add_mod_right, Nat.mod_eq_of_lt hw]
  · intro k hk1 hk2 hcontra
    rw [ringSucc_iterate n k w hw] at hcontra
    have hpos : 0 < n := by omega
    have hdm := Nat.div_add_mod (w + k) n
    rw [hcontra] at hdm
    have hknq : k = n * ((w + k) / n) := by omega
    have hq : (w + k) / n = 0 := by
      by_contra hq
      have hq1 : 1 ≤ (w + k) / n := Nat.pos_of_ne_zero hq
      have : n * 1 ≤ n * ((w + k) / n) := Nat.mul_le_mul (le_refl n) hq1
      omega
    rw [hq, Nat.mul_zero] at hknq
    omega

theorem cnotRingInit_ok (nqubit low high step : Int) (rev : Bool)
    (hval : -1 < low ∧ low < high ∧ high < nqubit) :
    cnotRingInit nqubit [low, high] step rev
      = .ok (cnotRingWires low high step rev) := by
  simp only [cnotRingInit]
  rw [if_pos]
  simp [boundsOk, hval.1, hval.2.1, hval.2.2]

theorem cnotRingWires_length (low high step : Int) (rev : Bool) :
    (cnotRingWires low high step rev).length = (high - low).toNat + 1 := by
  unfold cnotRingWires
  cases rev
  · rw [if_neg (by simp), List.length_map, List.length_range]
  · rw [if_pos rfl, List.length_map, List.length_reverse, List.length_range]

theorem cnotRingWires_idx_false (low high step : Int) (i : Nat)
    (hi : i < (high - low).toNat + 1) :
    (cnotRingWires low high step false)[i]?
      = some [low + (i : Int),
          low + ((i : Int) + step) % (high - low + 1)] := by
  unfold cnotRingWires
  rw [if_neg (by simp), List.getElem?_map, List.getElem?_range hi]
  rfl

theorem cnotRingWires_idx_true (low high step : Int) (i : Nat)
    (hi : i < (high - low).toNat + 1) :
    (cnotRingWires low high step true)[i]?
      = some [low + (((high - low).toNat - i : Nat) : Int),
          low + ((((high - low).toNat - i : Nat) : Int) - step)
            % (high - low + 1)] := by
  unfold cnotRingWires
  rw [if_pos rfl, List.getElem?_map, List.getElem?_reverse (by simpa using hi),
    List.length_range, List.getElem?_range (by omega)]
  have hidx : (high - low).toNat + 1 - 1 - i = (high - low).toNat - i := by omega
  rw [hidx]
  rfl

theorem cnotRingWires_mem (low high step : Int) (rev : Bool)
    (hlh : low < high) (g : List Int)
    (hg : g ∈ cnotRingWires low high step rev) :
    ∃ a b, g = [a, b] ∧ low ≤ a ∧ a ≤ high ∧ low ≤ b ∧ b ≤ high ∧
      (b - a - (if rev then -step else step)) % (high - low + 1) = 0 := by
  have hnw : (0 : Int) < high - low + 1 := by omega
  unfold cnotRingWires at hg
  cases rev with
  | false =>
    rw [if_neg (by simp)] at hg
    obtain ⟨i, hi, rfl⟩ := List.mem_map.mp hg
    rw [List.mem_range] at hi
    have hile : (i : Int) ≤ high - low := by omega
    refine ⟨_, _, rfl, by omega, by omega, ?_, ?_, ?_⟩
    · have := Int.emod_nonneg ((i : Int) + step) (by omega : high - low + 1 ≠ 0)
      omega
    · have := Int.emod_lt_of_pos ((i : Int) + step) hnw
      omega
    · have heq : low + ((i : Int) + step) % (high - low + 1) - (low + (i : Int))
          - (if (false : Bool) then -step else step)
          = ((i : Int) + step) % (high - low + 1) - ((i : Int) + step) := by
        simp only [Bool.false_eq_true, if_false]
        ring
      rw [heq, Int.sub_emod, Int.emod_emod_of_dvd _ (dvd_refl _), Int.sub_self,
        Int.zero_emod]
  | true =>
    rw [if_pos rfl] at hg
    obtain ⟨i, hi, rfl⟩ := List.mem_map.mp hg
    rw [List.mem_reverse, List.mem_range] at hi
    have hile : (i : Int) ≤ high - low := by omega
    refine ⟨_, _, rfl, by omega, by omega, ?_, ?_, ?_⟩
    · have := Int.emod_nonneg ((i : Int) - step) (by omega : high - low + 1 ≠ 0)
      omega
    · have := Int.emod_lt_of_pos ((i : Int) - step) hnw
      omega
    · have heq : low + ((i : Int) - step) % (high - low + 1) - (low + (i : Int))
          - (if (true : Bool) then -step else step)
          = ((i : Int) - step) % (high - low + 1) - ((i : Int) - step) := by
        simp only [if_true]
        ring
      rw [heq, Int.sub_emod, Int.emod_emod_of_dvd _ (dvd_refl _), Int.sub_self,
        Int.zero_emod]

/-! ### Observable basis parsing lemmas -/

theorem obsGates_replicate (ws : List (List Nat)) (c : Char) (p : Pauli)
    (hp : basisGate c = some p) :
    obsGates (ws.zip (List.replicate ws.length c))
      = .ok (ws.map (fun w => (w, p))) := by
  induction ws with
  | nil => rfl
  | cons w ws ih =>
    simp only [List.length_cons, List.replicate_succ, List.zip_cons_cons,
      obsGates, hp, List.map_cons]
    rw [show List.zipWith Prod.mk ws (List.replicate ws.length c)
      = ws.zip (List.replicate ws.length c) from rfl, ih]
    rfl

theorem obsGates_illegal (l : List (List Nat × Char))
    (h : ∃ wc ∈ l, basisGate wc.2 = none) :
    obsGates l = .error .illegalBasis := by
  induction l with
  | nil =>
    obtain ⟨wc, hmem, _⟩ := h
    simp at hmem
  | cons wc rest ih =>
    obtain ⟨w, c⟩ := wc
    cases hbg : basisGate c with
    | none => simp [obsGates, hbg]
    | some p =>
      have h2 : ∃ wc ∈ rest, basisGate wc.2 = none := by
        obtain ⟨wc0, hmem, hnone⟩ := h
        rcases List.mem_cons.mp hmem with rfl | hmem2
        · exact absurd hnone (by simp [hbg])
        · exact ⟨wc0, hmem2, hnone⟩
      simp only [obsGates, hbg]
      rw [ih h2]
      rfl

theorem zip_right_illegal (ws : List (List Nat)) (cs : List Char)
    (hlen : ws.length = cs.length)
    (h : ∃ c ∈ cs, basisGate c = none) :
    ∃ wc ∈ ws.zip cs, basisGate wc.2 = none := by
  induction ws generalizing cs with
  | nil =>
    obtain ⟨c0, hc0, _⟩ := h
    cases cs with
    | nil => simp at hc0
    | cons c cs => simp at hlen
  | cons w ws ih =>
    cases cs with
    | nil => simp at hlen
    | cons c cs =>
      obtain ⟨c0, hc0, hnone⟩ := h
      rcases List.mem_cons.mp hc0 with rfl | hmem
      · exact ⟨(w, c0), List.mem_cons_self _ _, hnone⟩
      · obtain ⟨wc, hwc, hn⟩ := ih cs (by simpa using hlen) ⟨c0, hmem, hnone⟩
        exact ⟨wc, List.mem_cons_of_mem _ hwc, hn⟩

theorem obsInit_single_ok (wires : List (List Nat)) (c : Char) (p : Pauli)
    (hp : basisGate c.toLower = some p) :
    observableInit wires [c]
      = .ok (List.replicate wires.length c.toLower,
          wires.map (fun w => (w, p))) := by
  unfold observableInit
  simp only [List.map_cons, List.map_nil]
  rw [if_pos (List.length_replicate _ _).symm]
  rw [obsGates_replicate wires c.toLower p hp]
  rfl

theorem obsInit_single_illegal (wires : List (List Nat)) (c : Char)
    (hnone : basisGate c.toLower = none) (hpos : 0 < wires.length) :
    observableInit wires [c] = .error .illegalBasis := by
  unfold observableInit
  simp only [List.map_cons, List.map_nil]
  rw [if_pos (List.length_replicate _ _).symm]
  cases wires with
  | nil => simp at hpos
  | cons w ws =>
    simp only [List.length_cons, List.replicate_succ, List.zip_cons_cons,
      obsGates, hnone]
    rfl

theorem obsInit_mismatch (wires : List (List Nat)) (b1 b2 : Char)
    (bs : List Char) (hne : (b1 :: b2 :: bs).length ≠ wires.length) :
    observableInit wires (b1 :: b2 :: bs) = .error .lengthMismatch := by
  unfold observableInit
  simp only [List.map_cons]
  have hlen : wires.length
      ≠ (b1.toLower :: b2.toLower :: bs.map Char.toLower).length := by
    simp only [List.length_cons, List.length_map]
    simp only [List.length_cons] at hne
    omega
  rw [if_neg hlen]

theorem obsInit_illegal_char (wires : List (List Nat)) (b1 b2 : Char)
    (bs : List Char) (hlen : (b1 :: b2 :: bs).length = wires.length)
    (hbad : ∃ c ∈ (b1 :: b2 :: bs), basisGate c.toLower = none) :
    observableInit wires (b1 :: b2 :: bs) = .error .illegalBasis := by
  unfold observableInit
  simp only [List.map_cons]
  rw [if_pos (by
    simp only [List.length_cons, List.length_map]
    simp only [List.length_cons] at hlen
    omega)]
  rw [obsGates_illegal]
  · rfl
  · apply zip_right_illegal
    · simp only [List.length_cons, List.length_map] at hlen ⊢
      omega
    · obtain ⟨c0, hc0, hn⟩ := hbad
      refine ⟨c0.toLower, ?_, hn⟩
      have hmm : c0.toLower ∈ (b1 :: b2 :: bs).map Char.toLower :=
        List.mem_map_of_mem _ hc0
      simpa using hmm

/-! ### Heap extension lemmas -/

theorem extTrans (h1 h2 h3 : Heap) (e1 : ∃ t, h2 = h1 ++ t)
    (e2 : ∃ t, h3 = h2 ++ t) : ∃ t, h3 = h1 ++ t := by
  obtain ⟨t1, rfl⟩ := e1
  obtain ⟨t2, rfl⟩ := e2
  exact ⟨t1 ++ t2, List.append_assoc _ _ _⟩

theorem alloc_extends (h : Heap) (o : PObj) : ∃ t, (alloc h o).1 = h ++ t :=
  ⟨[o], rfl⟩

theorem copyInner_extends (ps : List Nat) (h : Heap) :
    ∃ t, (copyInner h ps).1 = h ++ t := by
  induction ps generalizing h with
  | nil => exact ⟨[], (List.append_nil h).symm⟩
  | cons p rest ih =>
    simp only [copyInner, alloc]
    obtain ⟨t, ht⟩ := ih (h ++ [match h[p]? with
      | some (.innerW xs) => PObj.innerW xs
      | _ => PObj.innerW []])
    rw [ht]
    exact ⟨_, List.append_assoc _ _ _⟩

theorem copyGates_extends (ps : List Nat) (h : Heap) :
    ∃ t, (copyGates h ps).1 = h ++ t := by
  induction ps generalizing h with
  | nil => exact ⟨[], (List.append_nil h).symm⟩
  | cons p rest ih =>
    simp only [copyGates, alloc]
    obtain ⟨t, ht⟩ := ih (h ++ [PObj.gateObj p])
    rw [ht]
    exact ⟨_, List.append_assoc _ _ _⟩

theorem deepcopyLayer_extends (h : Heap) (L : PLayer) :
    ∃ t, (deepcopyLayer h L).1 = h ++ t := by
  unfold deepcopyLayer
  exact extTrans _ _ _
    (extTrans _ _ _
      (extTrans _ _ _ (copyInner_extends _ _) (alloc_extends _ _))
      (copyGates_extends _ _))
    (alloc_extends _ _)

theorem rotInverseHeap_extends (h : Heap) (L : PLayer) :
    ∃ t, (rotInverseHeap h L).1 = h ++ t := by
  unfold rotInverseHeap
  exact extTrans _ _ _
    (extTrans _ _ _
      (extTrans _ _ _ (deepcopyLayer_extends _ _) (copyGates_extends _ _))
      (alloc_extends _ _))
    (alloc_extends _ _)

theorem heapExt_getElem (h h2 : Heap) (hext : ∃ t, h2 = h ++ t) (a : Nat)
    (ha : a < h.length) : h2[a]? = h[a]? := by
  obtain ⟨t, rfl⟩ := hext
  exact List.getElem?_append_left ha

theorem heapExt_outerAt (h h2 : Heap) (hext : ∃ t, h2 = h ++ t) (p : Nat)
    (hp : p < h.length) : outerAt h2 p = outerAt h p := by
  unfold outerAt
  rw [heapExt_getElem h h2 hext p hp]

/-- Freshness of the rebuilt `wires` and `gates` members, and the aliased
reversed inner pointers. -/
theorem rotInverseHeap_fresh (h : Heap) (L : PLayer)
    (hw : L.wiresPtr < h.length) :
    h.length ≤ (rotInverseHeap h L).2.wiresPtr ∧
    h.length ≤ (rotInverseHeap h L).2.gatesPtr ∧
    outerAt (rotInverseHeap h L).1 (rotInverseHeap h L).2.wiresPtr
      = (outerAt h L.wiresPtr).reverse := by
  obtain ⟨t1, ht1⟩ :=
    extTrans _ _ _ (deepcopyLayer_extends h L)
      (copyGates_extends ((seqAt (deepcopyLayer h L).1 L.gatesPtr).reverse)
        (deepcopyLayer h L).1)
  refine ⟨?_, ?_, ?_⟩
  · show h.length ≤ ((copyGates (deepcopyLayer h L).1
      ((seqAt (deepcopyLayer h L).1 L.gatesPtr).reverse)).1
        ++ [PObj.gateSeq (copyGates (deepcopyLayer h L).1
          ((seqAt (deepcopyLayer h L).1 L.gatesPtr).reverse)).2]).length
    rw [ht1]
    simp
  · show h.length ≤ ((copyGates (deepcopyLayer h L).1
      ((seqAt (deepcopyLayer h L).1 L.gatesPtr).reverse)).1).length
    rw [ht1]
    simp
  · show outerAt (((copyGates (deepcopyLayer h L).1
        ((seqAt (deepcopyLayer h L).1 L.gatesPtr).reverse)).1
          ++ [PObj.gateSeq _])
        ++ [PObj.outerW (outerAt ((copyGates (deepcopyLayer h L).1
            ((seqAt (deepcopyLayer h L).1 L.gatesPtr).reverse)).1
              ++ [PObj.gateSeq _]) L.wiresPtr).reverse])
      ((copyGates (deepcopyLayer h L).1
        ((seqAt (deepcopyLayer h L).1 L.gatesPtr).reverse)).1
          ++ [PObj.gateSeq _]).length = _
    rw [outerAt, List.getElem?_concat_length]
    rw [heapExt_outerAt h _ ⟨t1 ++ [_], by rw [← List.append_assoc, ← ht1]⟩
      L.wiresPtr hw]

/-! ## Claim theorems -/

/-- Claim C1: for every `nmode` and `phi_first` flag, `dict2data` walks the
same order as the Clements topology construction (per-mode phase operations
first when not `phi_first`, then `nmode` alternating rows of two-wire
operations, then per-mode phase operations when `phi_first`); each
single-wire phase operation consumes slot `columns[wire]` and advances that
wire's counter by 1; each two-wire operation with left wire `w` consumes the
consecutive slots `columns[w]` and `columns[w] + 1` (phi from the first slot
and theta from the second when `phi_first`, theta first and phi second
otherwise) and advances the counter by 2; and the concatenated output
vector's element order matches the order operations were appended during
topology construction. -/
theorem clements_dict2data_order (nmode : Nat) (phiFirst : Bool) (l : PyDict) :
    clementsTraverse nmode phiFirst (dictFind (coercePass l)) =
      specWalk (dictFind (coercePass l)) phiFirst (clementsOps nmode phiFirst)
        ((fun _ => 0), []) ∧
    (dict2data nmode phiFirst l).2 =
      (specWalk (dictFind (coercePass l)) phiFirst (clementsOps nmode phiFirst)
        ((fun _ => 0), [])).map (fun st => (st.2.map valFlat).flatten) := by
  refine ⟨clementsTraverse_eq_specWalk nmode phiFirst _, ?_⟩
  show (clementsTraverse nmode phiFirst (dictFind (coercePass l))).map _ = _
  rw [clementsTraverse_eq_specWalk]

/-- Counterexample to claim C2 as stated: an `RxLayer` over one qubit with
the duplicated wire groups `[[0], [0]]` and injected angles `0` and `π` does
not satisfy the round-trip identity — `get_unitary` overwrite semantics keep
only the last gate per wire, so the product is `Rx(0)† · Rx(π) ≠ 1` (its
`(0,0)` entry is `cos (π/2) = 0`, a deviation of 1 from the identity). -/
theorem rot_roundtrip_counterexample :
    get_unitary 1 dupRxLayer.inverse.gates * get_unitary 1 dupRxLayer.gates ≠ 1 := by
  have hf : gateList 1 dupRxLayer.inverse.gates
      = fun _ => (RxMat 0).conjTranspose := by
    funext w
    rw [gateList_eq_lastOn]
    have hw : w = ⟨0, by omega⟩ := by
      apply Fin.ext
      omega
    rw [hw]
    rfl
  have hg : gateList 1 dupRxLayer.gates = fun _ => RxMat Real.pi := by
    funext w
    rw [gateList_eq_lastOn]
    have hw : w = ⟨0, by omega⟩ := by
      apply Fin.ext
      omega
    rw [hw]
    rfl
  intro h
  rw [get_unitary, get_unitary, hf, hg, multi_kron_mul, RxMat_zero,
    Matrix.conjTranspose_one] at h
  have h00 := congrFun (congrFun h (Prod.mk (0 : Fin 2) PUnit.unit : kIdx 1))
    (Prod.mk (0 : Fin 2) PUnit.unit : kIdx 1)
  simp only [multi_kron, Matrix.kroneckerMap_apply, one_mul] at h00
  rw [show ((1 : Matrix (kIdx 0) (kIdx 0) ℂ) PUnit.unit PUnit.unit) = 1 from
    rfl] at h00
  simp only [RxMat, Matrix.cons_val_zero, Matrix.cons_val', Matrix.of_apply]
    at h00
  rw [Real.cos_pi_div_two] at h00
  norm_num [Matrix.one_apply] at h00

/-- Claim C2, amended: for every rotation-family layer whose wire groups are
pairwise distinct and whose gates are unitary,
`unitary(L.inverse()) @ unitary(L)` equals the identity operator exactly
(deviation 0, in particular below any 1e-6 tolerance).  With duplicated
wires the identity fails (see the counterexample). -/
theorem rot_roundtrip_distinct (L : RotLayer)
    (hnd : (L.gates.map SGate.wire).Nodup)
    (hu : ∀ g ∈ L.gates, g.mat.conjTranspose * g.mat = 1) :
    get_unitary L.nqubit L.inverse.gates * get_unitary L.nqubit L.gates = 1 :=
  rot_roundtrip_core L hnd hu

/-- Witness for claim C2 at a one-qubit `RxLayer` with angle 0. -/
theorem rot_roundtrip_distinct_witness :
    (exRotLayer.gates.map SGate.wire).Nodup ∧
    get_unitary exRotLayer.nqubit exRotLayer.inverse.gates
      * get_unitary exRotLayer.nqubit exRotLayer.gates = 1 :=
  ⟨by simp [exRotLayer],
    rot_roundtrip_distinct exRotLayer (by simp [exRotLayer])
      (by
        intro g hg
        simp only [exRotLayer, List.mem_singleton] at hg
        rw [hg]
        simp [RxMat_zero])⟩

/-- Claim C3: for every layer defining `inverse()` (the rotation family and
`CnotLayer`), `inverse()` returns a layer whose operation order and
wire-group order are exactly reversed, and whose `i`-th operation's matrix is
the matrix inverse of the original's corresponding operation's matrix (for
the rotation family via the unitary gates' conjugate transpose, for
`CnotLayer` because CNOT is self-inverse). -/
theorem layer_inverse_spec :
    (∀ (L : RotLayer) (i : Nat), i < L.gates.length →
      L.inverse.wires = L.wires.reverse ∧
      L.inverse.gates.length = L.gates.length ∧
      L.inverse.gates[i]? = (L.gates[L.gates.length - 1 - i]?).map gateInverse ∧
      ((∀ g ∈ L.gates, g.mat.conjTranspose * g.mat = 1) →
        ∃ gi go, L.inverse.gates[i]? = some gi
          ∧ L.gates[L.gates.length - 1 - i]? = some go
          ∧ gi.mat * go.mat = 1 ∧ go.mat * gi.mat = 1)) ∧
    (∀ (C : CnotLayer) (i : Nat), i < C.gates.length →
      C.inverse.wires = C.wires.reverse ∧
      C.inverse.gates.length = C.gates.length ∧
      C.inverse.gates[i]? = C.gates[C.gates.length - 1 - i]? ∧
      CNOTmat * CNOTmat = 1) := by
  constructor
  · intro L i hi
    have hlen : L.inverse.gates.length = L.gates.length := by
      simp [RotLayer.inverse]
    have hcorr : L.inverse.gates[i]?
        = (L.gates[L.gates.length - 1 - i]?).map gateInverse := by
      show (L.gates.reverse.map gateInverse)[i]? = _
      rw [List.getElem?_map, List.getElem?_reverse (by simpa using hi)]
    refine ⟨rfl, hlen, hcorr, fun hu => ?_⟩
    have hlt : L.gates.length - 1 - i < L.gates.length := by omega
    have hgo : L.gates[L.gates.length - 1 - i]?
        = some (L.gates[L.gates.length - 1 - i]) :=
      List.getElem?_eq_getElem hlt
    refine ⟨gateInverse (L.gates[L.gates.length - 1 - i]),
      L.gates[L.gates.length - 1 - i], ?_, hgo, ?_, ?_⟩
    · rw [hcorr, hgo]
      rfl
    · exact hu _ (List.getElem_mem hlt)
    · exact Matrix.mul_eq_one_comm.mp (hu _ (List.getElem_mem hlt))
  · intro C i hi
    have hgl : C.gates.length = C.wires.length := by simp [CnotLayer.gates]
    refine ⟨rfl, by simp [CnotLayer.gates, CnotLayer.inverse], ?_,
      CNOTmat_mul_self⟩
    show (C.wires.reverse.map (fun w => (w, CNOTmat)))[i]?
      = (C.wires.map (fun w => (w, CNOTmat)))[C.gates.length - 1 - i]?
    rw [List.getElem?_map, List.getElem?_map,
      List.getElem?_reverse (by rw [← hgl]; exact hi), hgl]

/-- Witness for claim C3 at a concrete rotation layer and CNOT layer. -/
theorem layer_inverse_spec_witness :
    (exRotLayer.inverse.wires = exRotLayer.wires.reverse ∧
      (∃ gi go, exRotLayer.inverse.gates[0]? = some gi
        ∧ exRotLayer.gates[exRotLayer.gates.length - 1 - 0]? = some go
        ∧ gi.mat * go.mat = 1 ∧ go.mat * gi.mat = 1)) ∧
    (exCnotLayer.inverse.wires = exCnotLayer.wires.reverse ∧
      exCnotLayer.inverse.gates[0]? =
        exCnotLayer.gates[exCnotLayer.gates.length - 1 - 0]?) := by
  have h1 := layer_inverse_spec.1 exRotLayer 0 (by norm_num [exRotLayer])
  have h2 := layer_inverse_spec.2 exCnotLayer 0
    (by norm_num [exCnotLayer, CnotLayer.gates])
  refine ⟨⟨h1.1, h1.2.2.2 (fun g hg => ?_)⟩, h2.1, h2.2.2.1⟩
  simp only [exRotLayer, List.mem_singleton] at hg
  rw [hg]
  simp [RxMat_zero]

/-- Claim C7: for every `nmode`, if the angle dictionary passed to
`dict2data` lacks an entry for some `(wire, slot)` pair that the traversal
visits, the call fails with a lookup error naming a missing visited
`(wire, slot)` key (the first one in walk order). -/
theorem dict2data_missing_key (nmode : Nat) (pf : Bool) (l : PyDict)
    (h : ∃ k ∈ requiredKeys nmode pf, dictFind l k = none) :
    ∃ k ∈ requiredKeys nmode pf,
      dictFind l k = none ∧ (dict2data nmode pf l).2 = .error k := by
  obtain ⟨k0, hk0mem, hk0⟩ := h
  cases hres : clementsTraverse nmode pf (dictFind (coercePass l)) with
  | ok st =>
    exfalso
    rw [clementsTraverse_eq_specWalk] at hres
    have hall := specWalk_ok_keys (dictFind (coercePass l)) pf
      (clementsOps nmode pf) _ _ _ hres k0 hk0mem
    rw [(coercePass_find_none l k0).mpr hk0] at hall
    simp at hall
  | error k =>
    rw [clementsTraverse_eq_specWalk] at hres
    obtain ⟨hnone, hmem⟩ := specWalk_error_mem (dictFind (coercePass l)) pf
      (clementsOps nmode pf) _ _ _ hres
    refine ⟨k, hmem, (coercePass_find_none l k).mp hnone, ?_⟩
    show (clementsTraverse nmode pf (dictFind (coercePass l))).map _ = _
    rw [clementsTraverse_eq_specWalk, hres]
    rfl

/-- Witness for claim C7 at `nmode = 2`, `phi_first = true`, with the
required key `(0, 1)` missing from the dictionary. -/
theorem dict2data_missing_key_witness :
    (∃ k ∈ requiredKeys 2 true, dictFind exMissingDict k = none) ∧
    ∃ k ∈ requiredKeys 2 true,
      dictFind exMissingDict k = none ∧
        (dict2data 2 true exMissingDict).2 = .error k :=
  ⟨by decide, dict2data_missing_key 2 true exMissingDict (by decide)⟩

/-- Counterexample to claim C9 as stated: `dict2data` is not pure with
respect to its input dictionary — the coercion loop reassigns every entry,
so a dictionary holding a raw scalar no longer maps that key to its original
value after the call. -/
theorem dict2data_mutates_counterexample :
    (dict2data 2 true exRawDict).1 ≠ exRawDict := by decide

/-- Claim C9, amended: `dict2data` mutates the caller's mapping: after the
call every key maps to the flat-tensor coercion of its original value (raw
scalars become one-element tensors).  The key set and order are unchanged,
and a dictionary whose values are all already flat tensors is left pointwise
unchanged. -/
theorem dict2data_mutation_shape (nmode : Nat) (pf : Bool) (l : PyDict)
    (hnd : (l.map Prod.fst).Nodup) :
    (dict2data nmode pf l).1 = l.map (fun kv => (kv.1, coerceVal kv.2)) ∧
    (dict2data nmode pf l).1.map Prod.fst = l.map Prod.fst ∧
    ((∀ kv ∈ l, ∃ xs, kv.2 = AngVal.tensor xs) → (dict2data nmode pf l).1 = l) := by
  refine ⟨coercePass_spec l hnd, coercePass_keys l, fun h => ?_⟩
  show coercePass l = l
  rw [coercePass_spec l hnd]
  have hid : ∀ kv ∈ l, (fun kv : AngleKey × AngVal =>
      (kv.1, coerceVal kv.2)) kv = id kv := by
    intro kv hkv
    obtain ⟨xs, hxs⟩ := h kv hkv
    cases kv with
    | mk k v =>
      simp only [id]
      simp only at hxs
      rw [hxs]
      rfl
  rw [List.map_congr_left hid, List.map_id]

/-- Witness for claim C9's amended statement at a concrete raw-valued
dictionary. -/
theorem dict2data_mutation_shape_witness :
    (exRawDict.map Prod.fst).Nodup ∧
    (dict2data 2 true exRawDict).1 =
      exRawDict.map (fun kv => (kv.1, coerceVal kv.2)) :=
  ⟨by decide, (dict2data_mutation_shape 2 true exRawDict (by decide)).1⟩

/-- Counterexample to claim C4 as stated: running `inverse()` on the layer
in `exHeap`, the returned layer's wire-group list contains address 1 — the
very object that is the original layer's second wire group.  Inner
wire-group lists are aliased between the original and the inverse, not
copied. -/
theorem inverse_aliasing_counterexample :
    1 ∈ outerAt (rotInverseHeap exHeap exPLayer).1
        (rotInverseHeap exHeap exPLayer).2.wiresPtr ∧
    1 ∈ outerAt exHeap exPLayer.wiresPtr := by decide

/-- Claim C4, amended: `inverse()` does not mutate the original layer's
state (the heap is only extended; every pre-existing address keeps its
object), and the returned layer's gate container and outer wire-group list
are fresh objects; but the individual wire-group lists are not copied — the
returned layer's wires list holds the original layer's inner wire-group
list objects, in reversed order. -/
theorem inverse_no_mutation (h : Heap) (L : PLayer)
    (hw : L.wiresPtr < h.length) :
    (∀ a : Nat, a < h.length → (rotInverseHeap h L).1[a]? = h[a]?) ∧
    h.length ≤ (rotInverseHeap h L).2.wiresPtr ∧
    h.length ≤ (rotInverseHeap h L).2.gatesPtr ∧
    outerAt (rotInverseHeap h L).1 (rotInverseHeap h L).2.wiresPtr
      = (outerAt h L.wiresPtr).reverse :=
  ⟨fun a ha => heapExt_getElem h _ (rotInverseHeap_extends h L) a ha,
    rotInverseHeap_fresh h L hw⟩

/-- Witness for claim C4's amended statement at the concrete heap. -/
theorem inverse_no_mutation_witness :
    exPLayer.wiresPtr < exHeap.length ∧
    outerAt (rotInverseHeap exHeap exPLayer).1
        (rotInverseHeap exHeap exPLayer).2.wiresPtr
      = (outerAt exHeap exPLayer.wiresPtr).reverse :=
  ⟨by decide, (inverse_no_mutation exHeap exPLayer (by decide)).2.2.2⟩

/-- Claim C5: for every valid ring descriptor (`0 ≤ low < high <
total_wires`, any integer step, any reverse flag), `CnotRing` produces one
wire group per wire position: non-reversed groups are
`[low + i, low + (i + step) % width]` for `i` ascending from 0, reversed
groups descend from `high` with offset `(i - step) % width`; every group
connects two wires inside `[low, high]` whose offset difference is `step`
(`-step` when reversed) modulo the width; and for `minmax = [0, n-1]`,
`step = 1`, `reverse = False` the groups form a single cycle visiting all
`n` wires: group `i` is `[i, (i+1) % n]` and following right pointers
returns to the start after exactly `n` steps. -/
theorem cnot_ring_spec (nqubit low high step : Int) (rev : Bool) (n : Nat)
    (hval : -1 < low ∧ low < high ∧ high < nqubit) (hn : 2 ≤ n) :
    (cnotRingInit nqubit [low, high] step rev
        = .ok (cnotRingWires low high step rev) ∧
      (cnotRingWires low high step rev).length = (high - low).toNat + 1 ∧
      (∀ i : Nat, i < (high - low).toNat + 1 →
        (cnotRingWires low high step rev)[i]? = some (if rev then
          [low + (((high - low).toNat - i : Nat) : Int),
           low + ((((high - low).toNat - i : Nat) : Int) - step)
             % (high - low + 1)]
        else
          [low + (i : Int), low + ((i : Int) + step) % (high - low + 1)])) ∧
      (∀ g ∈ cnotRingWires low high step rev, ∃ a b, g = [a, b] ∧
        low ≤ a ∧ a ≤ high ∧ low ≤ b ∧ b ≤ high ∧
        (b - a - (if rev then -step else step)) % (high - low + 1) = 0)) ∧
    (cnotRingInit (n : Int) [0, (n : Int) - 1] 1 false
        = .ok (cnotRingWires 0 ((n : Int) - 1) 1 false) ∧
      (cnotRingWires 0 ((n : Int) - 1) 1 false).length = n ∧
      (∀ i : Nat, i < n →
        (cnotRingWires 0 ((n : Int) - 1) 1 false)[i]?
          = some [(i : Int), ((ringSucc n i : Nat) : Int)]) ∧
      (∀ w : Nat, w < n → (ringSucc n)^[n] w = w ∧
        ∀ k : Nat, 0 < k → k < n → (ringSucc n)^[k] w ≠ w)) := by
  refine ⟨⟨cnotRingInit_ok _ _ _ _ _ hval, cnotRingWires_length _ _ _ _, ?_,
    fun g hg => cnotRingWires_mem _ _ _ _ hval.2.1 g hg⟩,
    cnotRingInit_ok _ _ _ _ _ ⟨by omega, by omega, by omega⟩, ?_, ?_,
    fun w hw => ringSucc_cycle n w hw⟩
  · intro i hi
    cases rev
    · simp only [Bool.false_eq_true, if_false]
      exact cnotRingWires_idx_false _ _ _ i hi
    · simp only [if_true]
      exact cnotRingWires_idx_true _ _ _ i hi
  · rw [cnotRingWires_length]
    omega
  · intro i hi
    rw [cnotRingWires_idx_false _ _ _ i (by omega)]
    have h2 : (n : Int) - 1 - 0 + 1 = (n : Int) := by ring
    have h3 : ((i : Int) + 1) % (n : Int) = (((i + 1) % n : Nat) : Int) := by
      push_cast
      ring
    congr 2
    · omega
    · rw [h2, h3]
      simp [ringSucc]

/-- Witness for claim C5 at `nqubit = 4`, `minmax = [0, 3]`, `step = 2`,
`reverse = True`, and the full ring at `n = 3`. -/
theorem cnot_ring_spec_witness :
    (cnotRingInit 4 [0, 3] 2 true = .ok (cnotRingWires 0 3 2 true)) ∧
    (ringSucc 3)^[3] 1 = 1 :=
  ⟨(cnot_ring_spec 4 0 3 2 true 3 (by decide) (by decide)).1.1,
   ((cnot_ring_spec 4 0 3 2 true 3 (by decide) (by decide)).2.2.2.2 1
     (by decide)).1⟩

/-- Claim C6: `CnotRing` construction fails with a configuration error for
every `minmax` violating `0 ≤ low < high < total_wires` (in particular
`[2, 1]` and `[0, n]` for `n = total_wires`), and no partial layer is
returned. -/
theorem cnot_ring_reject (nqubit : Int) (minmax : List Int) (step : Int)
    (rev : Bool) (h : boundsOk nqubit minmax = false) :
    cnotRingInit nqubit minmax step rev = .error () := by
  match minmax with
  | [] => rfl
  | [a] => rfl
  | a :: b :: c :: rest => rfl
  | [low, high] =>
    simp only [cnotRingInit]
    rw [if_neg]
    simp [h]

/-- Witness for claim C6 at the two configurations the claim names. -/
theorem cnot_ring_reject_witness :
    (boundsOk 3 [2, 1] = false ∧ cnotRingInit 3 [2, 1] 1 false = .error ()) ∧
    (boundsOk 3 [0, 3] = false ∧ cnotRingInit 3 [0, 3] 1 false = .error ()) :=
  ⟨⟨by decide, cnot_ring_reject 3 [2, 1] 1 false (by decide)⟩,
   ⟨by decide, cnot_ring_reject 3 [0, 3] 1 false (by decide)⟩⟩

/-- Claim C8: a single-character basis string is expanded to that
character (lowercased) repeated once per measured wire, and the per-wire
Pauli gates are built accordingly; a basis string of length > 1 whose
length differs from the number of measured wires fails the configuration
assert; and a basis character outside the recognized x/y/z set raises the
ValueError. -/
theorem observable_basis_spec :
    (∀ (wires : List (List Nat)) (c : Char) (p : Pauli),
      basisGate c.toLower = some p →
        observableInit wires [c]
          = .ok (List.replicate wires.length c.toLower,
              wires.map (fun w => (w, p)))) ∧
    (∀ (wires : List (List Nat)) (c : Char),
      basisGate c.toLower = none → 0 < wires.length →
        observableInit wires [c] = .error .illegalBasis) ∧
    (∀ (wires : List (List Nat)) (basis : List Char),
      1 < basis.length → basis.length ≠ wires.length →
        observableInit wires basis = .error .lengthMismatch) ∧
    (∀ (wires : List (List Nat)) (basis : List Char),
      1 < basis.length → basis.length = wires.length →
      (∃ c ∈ basis, basisGate c.toLower = none) →
        observableInit wires basis = .error .illegalBasis) := by
  refine ⟨obsInit_single_ok, obsInit_single_illegal, ?_, ?_⟩
  · intro wires basis h1 h2
    match basis, h1 with
    | b1 :: b2 :: bs, _ => exact obsInit_mismatch wires b1 b2 bs h2
  · intro wires basis h1 h2 h3
    match basis, h1, h2, h3 with
    | b1 :: b2 :: bs, _, h2, h3 => exact obsInit_illegal_char wires b1 b2 bs h2 h3

/-- Witness for claim C8 at concrete wire lists and basis strings
(including the lowercasing of an uppercase basis character). -/
theorem observable_basis_spec_witness :
    (basisGate 'Z'.toLower = some Pauli.Z ∧
      observableInit [[0], [1]] ['Z']
        = .ok (List.replicate (List.length [[0], [1]]) 'Z'.toLower,
            List.map (fun w => (w, Pauli.Z)) [[0], [1]])) ∧
    observableInit [[0]] ['x', 'y'] = .error .lengthMismatch ∧
    observableInit [[0], [1]] ['x', 'q'] = .error .illegalBasis := by
  refine ⟨⟨by decide, ?_⟩, ?_, ?_⟩
  · exact observable_basis_spec.1 [[0], [1]] 'Z' Pauli.Z (by decide)
  · exact observable_basis_spec.2.2.1 [[0]] ['x', 'y'] (by decide) (by decide)
  · exact observable_basis_spec.2.2.2 [[0], [1]] ['x', 'q'] (by decide)
      (by decide) (by decide)

/-- Claim C10: in `SingleLayer.get_unitary`, when several gates target the
same wire only the last one's matrix occupies that wire's position in the
assembled tensor product, so the returned unitary equals the one built from
only the last gate per wire. -/
theorem get_unitary_last_wins (n : Nat) (gates : List SGate) :
    (∀ w : Fin n, gateList n gates w = (lastOn gates w.val).elim 1 SGate.mat) ∧
    get_unitary n gates = get_unitary n (keepLast gates) := by
  refine ⟨fun w => gateList_eq_lastOn n gates w, ?_⟩
  unfold get_unitary
  have hlists : gateList n gates = gateList n (keepLast gates) := by
    funext w
    rw [gateList_eq_lastOn, gateList_eq_lastOn, lastOn_keepLast]
  rw [hlists]

end DQ
